import Mathlib

/-!
Verification of the knowledge-base pipeline of the `piper` repository
(`scripts/knowledge-base/kb_modules/`): the chunker, the versioned-identifier
scheme, the batch embedding client, the vector-store adapter and the
orchestrator.  Python strings are modelled as `List Char`, Python `int` as
`Int` (or `Nat` where the value is a size), Python `float` similarity scores
as `ℚ`.  Loops whose termination is in question are modelled with explicit
fuel, `none` standing for divergence.  External services (the embedding API,
the vector database) enter as oracle parameters.
-/

namespace Piper

/-! ### Python string primitives

`document_processor.chunk_text` uses Python slicing `text[a:b]` and
`str.rfind(sub, a, b)`.  Python normalises a slice index `i` over a string of
length `n` to `max(n + i, 0)` when `i < 0` and to `min(i, n)` otherwise; the
same normalisation applies to the `rfind` bounds. -/

/-- Python slice-index normalisation for a sequence of length `n`. -/
def sliceIdx (n : Nat) (i : Int) : Nat :=
  if i < 0 then (Int.ofNat n + i).toNat else min i.toNat n

/-- Python `s[a:b]` on a string modelled as a `List Char`. -/
def pySlice (s : List Char) (a b : Int) : List Char :=
  (s.take (sliceIdx s.length b)).drop (sliceIdx s.length a)

/-- Python `s.rfind(c, a, b)` for a single-character needle: the highest index
`i` in the normalised range `[a, b)` with `s[i] = c`, or `-1` when there is
none. -/
def pyRfind (s : List Char) (c : Char) (a b : Int) : Int :=
  let lo := sliceIdx s.length a
  let hi := sliceIdx s.length b
  match ((List.range s.length).filter
      (fun i => decide (lo ≤ i) && decide (i < hi) && (s.get? i == some c))).getLast? with
  | some i => Int.ofNat i
  | none => -1

/-! ### Chunker (`document_processor.chunk_text`, lines 80-137)

The loop body first sets `end = min(start + max_size, len(text))`; when that
right edge is strictly inside the text it searches for a break point: the
last newline in `[start, end)` if it lies strictly beyond `start +
max_size // 2`, otherwise the last space in `[start + max_size // 2, end)`
if it lies strictly beyond `start`; `end` becomes the break position plus
one.  The chunk `text[start:end]` is appended and the next iteration starts
at `end - overlap`.  The Python `while start < len(text)` loop has no other
exit, so we model it with fuel; `none` models non-termination. -/

/-- The value of `end` after the break-point search, for the loop iteration
starting at `start`. -/
def chunkEnd (text : List Char) (maxSize : Nat) (start : Int) : Int :=
  let n : Int := Int.ofNat text.length
  let end0 : Int := min (start + Int.ofNat maxSize) n
  if end0 < n then
    let np := pyRfind text '\n' start end0
    if np > start + Int.ofNat (maxSize / 2) then np + 1
    else
      let sp := pyRfind text ' ' (start + Int.ofNat (maxSize / 2)) end0
      if sp > start then sp + 1 else end0
  else end0

/-- The `while start < len(text)` loop of `chunk_text`, with fuel. -/
def chunkLoop (text : List Char) (maxSize overlap : Nat) :
    Nat → Int → List (List Char) → Option (List (List Char))
  | 0, _, _ => none
  | fuel + 1, start, acc =>
    if start < Int.ofNat text.length then
      let e := chunkEnd text maxSize start
      chunkLoop text maxSize overlap fuel (e - Int.ofNat overlap)
        (acc ++ [pySlice text start e])
    else some acc

/-- `chunk_text(text, max_size, overlap)`: empty text yields `[]`, text that
fits in one chunk yields `[text]`, otherwise the windowing loop runs. -/
def chunk_text (text : List Char) (maxSize overlap : Nat) (fuel : Nat) :
    Option (List (List Char)) :=
  if text = [] then some []
  else if text.length ≤ maxSize then some [text]
  else chunkLoop text maxSize overlap fuel 0 []

/-- Eleven copies of `A`: one character more than a `max_size` of ten, with
no newline and no space, so the break-point search never fires. -/
def elevenAs : List Char := List.replicate 11 'A'

/-! ### Versioned identifiers (`versioning.VersionManager.create_versioned_id`,
lines 122-138)

The Python code computes `uuid.uuid5(uuid.NAMESPACE_URL, name)` where
`name = f"{path}_{timestamp}_{chunk_index}"`.  `uuid5` is a fixed
deterministic function of `name`, so determinism of the identifier is
determinism of `name`, and distinctness of identifiers for distinct triples
is distinctness of `name` (up to the spec's own "no collision in practice"
assumption on the namespaced hash).  We therefore verify the identity
properties at the level of the hash input `name`. -/

/-- The character Python's `str` uses for the decimal digit `d < 10`. -/
def digitChar : Nat → Char
  | 0 => '0' | 1 => '1' | 2 => '2' | 3 => '3' | 4 => '4'
  | 5 => '5' | 6 => '6' | 7 => '7' | 8 => '8' | 9 => '9'
  | _ => '0'

/-- Decimal rendering of a natural number, mirroring Python `str` on a
non-negative `int`. -/
def natStr (n : Nat) : List Char :=
  if n < 10 then [digitChar n]
  else natStr (n / 10) ++ [digitChar (n % 10)]
termination_by n
decreasing_by exact Nat.div_lt_self (by omega) (by omega)

/-- Python `str` on an `int`: a leading minus sign for negative values. -/
def intStr (i : Int) : List Char :=
  if i < 0 then '-' :: natStr (-i).toNat else natStr i.toNat

/-- The `uuid5` hash input `f"{path}_{timestamp}_{chunk_index}"` of
`create_versioned_id`. -/
def create_versioned_id (path : List Char) (timestamp chunk_index : Int) :
    List Char :=
  path ++ '_' :: intStr timestamp ++ '_' :: intStr chunk_index

/-- Numeric value of a digit list, the inverse used to prove `natStr`
injective. -/
def digitsVal (l : List Char) : Nat :=
  l.foldl (fun a c => 10 * a + (c.toNat - 48)) 0

/-! ### Shared batching helper

Both `vector_store.add_points` (`range(0, len(points), batch_size)`) and
`embeddings.get_embeddings_batch` / `knowledge_base._process_chunks`
(`range(0, len(texts), chunk_size)`) slice a list into consecutive chunks of
a fixed positive size. -/

/-- Consecutive chunks of size `n` (the final chunk may be shorter),
recursing on a fuel that starts at `l.length` — enough for every iteration,
since each one consumes at least one element when `n > 0`. -/
def chunksOfAux (n : Nat) : Nat → List α → List (List α)
  | 0, _ => []
  | _, [] => []
  | fuel + 1, x :: xs => (x :: xs).take n :: chunksOfAux n fuel ((x :: xs).drop n)

/-- Consecutive chunks of size `n` (the final chunk may be shorter).  For
`n = 0`, where the Python `range` would raise, we return `[]`. -/
def chunksOf (n : Nat) (l : List α) : List (List α) :=
  if n = 0 then [] else chunksOfAux n l.length l

/-! ### Embedding client (`embeddings.EmbeddingGenerator.get_embeddings_batch`,
lines 119-193)

The input is split into sub-batches of `chunk_size` texts; each sub-batch is
cleaned (newlines to spaces, truncation to 8191 characters) and then tried up
to `max_retries` times.  The outcome of each remote call is an oracle
parameter.  On success the response vectors (one per cleaned text, per the
provider contract) are appended.  `RateLimitError` and
`APITimeoutError`/`APIConnectionError` sleep and move to the next attempt —
with no placeholder appended when the attempts run out.  `OpenAIError`
retries except on the final attempt, where one zero-vector placeholder per
chunk text is appended; any other exception appends the placeholders and
breaks immediately. -/

inductive ApiOutcome where
  | ok
  | rateLimit
  | timeoutOrConn
  | apiErr
  | otherErr
deriving DecidableEq

/-- `text.replace("\n", " ")[:8191]`. -/
def cleanText (t : List Char) : List Char :=
  (t.map (fun c => if c = '\n' then ' ' else c)).take 8191

/-- `[0.0] * dim`. -/
def zeroVec (dim : Nat) : List ℚ :=
  List.replicate dim 0

/-- The `for attempt in range(max_retries)` loop for one sub-batch, returning
the vectors this sub-batch appends to the output.  `left` is the number of
attempts still available including the current one, `a` the current attempt
index; `left = 0` is the loop falling off the end, which appends nothing. -/
def attemptLoop (embedFn : List Char → List ℚ) (dim : Nat)
    (cleaned : List (List Char)) (outcome : Nat → ApiOutcome) :
    Nat → Nat → List (List ℚ)
  | 0, _ => []
  | left + 1, a =>
    match outcome a with
    | .ok => cleaned.map embedFn
    | .rateLimit => attemptLoop embedFn dim cleaned outcome left (a + 1)
    | .timeoutOrConn => attemptLoop embedFn dim cleaned outcome left (a + 1)
    | .apiErr =>
      if left = 0 then List.replicate cleaned.length (zeroVec dim)
      else attemptLoop embedFn dim cleaned outcome left (a + 1)
    | .otherErr => List.replicate cleaned.length (zeroVec dim)

/-- Whether the attempt loop stops by appending vectors (success, final-attempt
`OpenAIError`, or a generic exception) rather than falling off the end of its
attempts with only transient errors. -/
def appendsWithin (outcome : Nat → ApiOutcome) : Nat → Nat → Bool
  | 0, _ => false
  | left + 1, a =>
    match outcome a with
    | .ok => true
    | .rateLimit => appendsWithin outcome left (a + 1)
    | .timeoutOrConn => appendsWithin outcome left (a + 1)
    | .apiErr => if left = 0 then true else appendsWithin outcome left (a + 1)
    | .otherErr => true

/-- The outer loop over sub-batches; `k` is the sub-batch ordinal used to
index the outcome oracle. -/
def batchLoop (embedFn : List Char → List ℚ) (dim maxRetries : Nat)
    (outcomes : Nat → Nat → ApiOutcome) :
    List (List (List Char)) → Nat → List (List ℚ)
  | [], _ => []
  | b :: rest, k =>
    attemptLoop embedFn dim (b.map cleanText) (outcomes k) maxRetries 0
      ++ batchLoop embedFn dim maxRetries outcomes rest (k + 1)

/-- `get_embeddings_batch(texts, chunk_size)` with the remote call abstracted
into `outcomes` (per sub-batch and attempt) and `embedFn` (the provider's
embedding of one cleaned text on success). -/
def get_embeddings_batch (embedFn : List Char → List ℚ) (dim maxRetries : Nat)
    (outcomes : Nat → Nat → ApiOutcome) (chunkSize : Nat)
    (texts : List (List Char)) : List (List ℚ) :=
  batchLoop embedFn dim maxRetries outcomes (chunksOf chunkSize texts) 0

/-! ### Vector store: latest-only query collapse (`vector_store.VectorStore.query`,
lines 271-299)

After the external similarity search returns `search_result`, the
`latest_only` block groups hits by `payload["metadata"]["path"]` (default
`"unknown"`, hits with no payload skipped) into an insertion-ordered dict,
keeps per path the hit with the larger `payload["timestamp"]` (default `0`;
on a tie the earlier hit stays), then sorts the surviving hits by score
descending (Python `sorted` is stable) and truncates to `limit`. -/

structure QPayload where
  path : Option String
  timestamp : Option Int
deriving DecidableEq

structure ScoredPoint where
  payload : Option QPayload
  score : ℚ
deriving DecidableEq

/-- `metadata.get("path", "unknown")`. -/
def payloadPath (p : QPayload) : String :=
  p.path.getD "unknown"

/-- The grouping key of a hit; hits without payload never reach the grouping. -/
def hitPathOf (h : ScoredPoint) : String :=
  match h.payload with
  | some p => payloadPath p
  | none => "unknown"

/-- `payload.get("timestamp", 0)`, with a missing payload also read as `0`. -/
def hitTimestamp (h : ScoredPoint) : Int :=
  match h.payload with
  | some p => p.timestamp.getD 0
  | none => 0

/-- `path_groups[path]` lookup in the insertion-ordered dict. -/
def findGroup (groups : List (String × ScoredPoint)) (path : String) :
    Option ScoredPoint :=
  (groups.find? (fun g => decide (g.1 = path))).map (fun g => g.2)

/-- `path_groups[path] = (hit, score)` on an existing key: the value is
replaced, the insertion position kept. -/
def updateGroup (groups : List (String × ScoredPoint)) (path : String)
    (h : ScoredPoint) : List (String × ScoredPoint) :=
  groups.map (fun g => if g.1 = path then (path, h) else g)

/-- One iteration of the `for hit in search_result` grouping loop. -/
def stepGroup (groups : List (String × ScoredPoint)) (hit : ScoredPoint) :
    List (String × ScoredPoint) :=
  match hit.payload with
  | none => groups
  | some pl =>
    match findGroup groups (payloadPath pl) with
    | none => groups ++ [(payloadPath pl, hit)]
    | some ex =>
      if hitTimestamp hit > hitTimestamp ex then
        updateGroup groups (payloadPath pl) hit
      else groups

/-- The insertion-ordered `path_groups` dict after the grouping loop. -/
def latestGroups (hits : List ScoredPoint) : List (String × ScoredPoint) :=
  hits.foldl stepGroup []

/-- The whole `latest_only` block: group, keep newest per path, re-sort by
score descending (stably) and truncate to `limit`. -/
def latestOnlyFilter (hits : List ScoredPoint) (limit : Nat) :
    List ScoredPoint :=
  ((((latestGroups hits).map (fun g => g.2)).mergeSort
    (fun a b => decide (b.score ≤ a.score))).take limit)

/-- The stored hit for path `doc.md` with timestamp 100 and score 0.9. -/
def hitTs100 : ScoredPoint :=
  { payload := some { path := some "doc.md", timestamp := some 100 }
    score := 9 / 10 }

/-- The stored hit for path `doc.md` with timestamp 200 and score 0.7. -/
def hitTs200 : ScoredPoint :=
  { payload := some { path := some "doc.md", timestamp := some 200 }
    score := 7 / 10 }

/-- Invariant of the grouping loop: after processing the hit list, the dict
has no duplicate path keys; every entry holds a hit with a payload, keyed by
its own path, drawn from the processed hits; every processed hit with a
payload has its path among the keys; and every entry's hit has the maximal
timestamp among processed hits of its path. -/
def GroupsInv (groups : List (String × ScoredPoint))
    (hits : List ScoredPoint) : Prop :=
  (groups.map Prod.fst).Nodup ∧
  (∀ g ∈ groups, g.2.payload ≠ none ∧ hitPathOf g.2 = g.1 ∧ g.2 ∈ hits) ∧
  (∀ h ∈ hits, h.payload ≠ none → hitPathOf h ∈ groups.map Prod.fst) ∧
  (∀ g ∈ groups, ∀ h ∈ hits, h.payload ≠ none → hitPathOf h = g.1 →
    hitTimestamp h ≤ hitTimestamp g.2)

/-! ### Vector store: version listing (`vector_store.VectorStore.get_document_versions`,
lines 327-381)

The scroll call returns the stored points whose `metadata.path` equals the
requested path, first page only (`limit=100`).  The loop then records, for
each point with a truthy timestamp (`if timestamp:` — present and non-zero)
and `payload.get("chunk_index", 0) == 0`, the pair
`timestamp -> payload.get("version_date", format_timestamp(timestamp))` in a
dict (later points with the same timestamp overwrite the date), and finally
returns `sorted(versions.items(), reverse=True)` — descending by timestamp,
the keys being unique. -/

structure VPayload where
  path : String
  timestamp : Option Int
  version_date : Option String
  chunk_index : Option Int
deriving DecidableEq

structure StoredPoint where
  payload : Option VPayload
deriving DecidableEq

/-- The first scroll page: path-filtered stored points, truncated at the
page size 100. -/
def scrollPage (stored : List StoredPoint) (path : String) :
    List StoredPoint :=
  (stored.filter (fun pt =>
    match pt.payload with
    | some pl => decide (pl.path = path)
    | none => false)).take 100

/-- `versions[ts] = d` on the insertion-ordered dict. -/
def insertVersion (vers : List (Int × String)) (ts : Int) (d : String) :
    List (Int × String) :=
  if vers.any (fun v => decide (v.1 = ts)) then
    vers.map (fun v => if v.1 = ts then (ts, d) else v)
  else vers ++ [(ts, d)]

/-- One iteration of the `for point in points` loop building the `versions`
dict: a point is recorded when it has a payload, a truthy timestamp
(present and non-zero) and chunk index 0; `dateFmt` models
`format_timestamp` (only used when `version_date` is missing). -/
def stepVersion (dateFmt : Int → String) (vers : List (Int × String))
    (pt : StoredPoint) : List (Int × String) :=
  match pt.payload with
  | none => vers
  | some pl =>
    match pl.timestamp with
    | none => vers
    | some ts =>
      if ts ≠ 0 ∧ pl.chunk_index.getD 0 = 0 then
        insertVersion vers ts (pl.version_date.getD (dateFmt ts))
      else vers

/-- The `versions` dict after the loop over the scrolled points. -/
def versionsFold (dateFmt : Int → String) (pts : List StoredPoint) :
    List (Int × String) :=
  pts.foldl (stepVersion dateFmt) []

/-- `get_document_versions(path)` over a modelled store. -/
def get_document_versions (dateFmt : Int → String)
    (stored : List StoredPoint) (path : String) : List (Int × String) :=
  (versionsFold dateFmt (scrollPage stored path)).mergeSort
    (fun a b => decide (b.1 ≤ a.1))

/-- A stored chunk-0 point for path `doc` whose timestamp is the falsy `0`. -/
def zeroTsPoint : StoredPoint :=
  { payload := some
      { path := "doc", timestamp := some 0
        version_date := some "1970-01-01 00:00:00", chunk_index := some 0 } }

/-- A stored chunk-0 point for path `doc` with the honest timestamp 5. -/
def fiveTsPoint : StoredPoint :=
  { payload := some
      { path := "doc", timestamp := some 5
        version_date := some "1970-01-01 00:00:05", chunk_index := some 0 } }

/-- Whether a stored point is a version representative: it has a payload
with a present, non-zero timestamp `ts` and chunk index 0. -/
def isVersionRep (pt : StoredPoint) (ts : Int) : Prop :=
  ∃ pl, pt.payload = some pl ∧ pl.timestamp = some ts ∧ ts ≠ 0
    ∧ pl.chunk_index.getD 0 = 0

/-- Invariant of the `versions` dict loop: no duplicate timestamp keys;
every recorded timestamp comes from a processed version-representative
point; every processed version-representative point's timestamp is
recorded. -/
def VersionsInv (vers : List (Int × String)) (pts : List StoredPoint) : Prop :=
  (vers.map Prod.fst).Nodup ∧
  (∀ v ∈ vers, ∃ pt ∈ pts, isVersionRep pt v.1) ∧
  (∀ pt ∈ pts, ∀ ts : Int, isVersionRep pt ts → ts ∈ vers.map Prod.fst)

/-! ### Vector store: batched upsert (`vector_store.VectorStore.add_points`,
lines 146-209)

An empty point list returns `True` immediately.  Otherwise the points are
sliced into batches of `batch_size = min(MAX_BATCH_SIZE, len(points))`; each
batch is tried up to `MAX_RETRIES` times (the sleeps between attempts are
not modelled); a batch that exhausts its retries makes the whole call return
`False` at once, leaving the batches already upserted committed.  The final
return value is `successful_batches == total_batches`.  The upsert call is
an oracle `ok batch attempt`; the committed state is returned alongside the
boolean. -/

def MAX_BATCH_SIZE : Nat := 100

def MAX_RETRIES : Nat := 3

/-- The batches `points[i:i+batch_size]` for `i in range(0, len(points),
batch_size)` with `batch_size = min(MAX_BATCH_SIZE, len(points))`. -/
def batchesOf (points : List α) : List (List α) :=
  chunksOf (min MAX_BATCH_SIZE points.length) points

/-- The `for attempt in range(MAX_RETRIES)` loop for one batch: true as soon
as some attempt succeeds, false when all remaining attempts fail. -/
def tryBatch (ok : Nat → Bool) : Nat → Nat → Bool
  | 0, _ => false
  | left + 1, a => if ok a then true else tryBatch ok left (a + 1)

/-- The `for i in range(0, len(points), batch_size)` loop: `k` is the batch
ordinal, `succ` the count of successful batches, and the accumulated list the
batches committed so far. -/
def addLoop (ok : Nat → Nat → Bool) (total : Nat) :
    List (List α) → Nat → Nat → List (List α) → Bool × List (List α)
  | [], _, succ, committed => (decide (succ = total), committed)
  | b :: rest, k, succ, committed =>
    if tryBatch (ok k) MAX_RETRIES 0 then
      addLoop ok total rest (k + 1) (succ + 1) (committed ++ [b])
    else (false, committed)

/-- `add_points(points)`: the returned boolean together with the batches the
external store has committed when the call returns. -/
def add_points (ok : Nat → Nat → Bool) (points : List α) :
    Bool × List (List α) :=
  if points.isEmpty then (true, [])
  else addLoop ok (batchesOf points).length (batchesOf points) 0 0 []

/-! ### Orchestrator (`knowledge_base.KnowledgeBase._process_chunks` lines
163-260 and `add_document` lines 84-123)

`_process_chunks` walks the chunks in sub-batches of
`MAX_EMBEDDING_BATCH_SIZE = 16`, embeds each sub-batch (`get_embeddings`,
abstracted here into `embedBatch`), skips a sub-batch whose embedding count
does not match, builds one point per (text, embedding) pair with the global
chunk index, and finally: no points at all is `(False, 0)`; otherwise the
points go to `add_points` in one call and the result is `(True, total_added)`
on success, `(False, 0)` on failure (`total_added` counts exactly the points
built).  `add_document` reads the file, chunks it, and returns `(False, 0)`
when no chunks were produced, before any embedding or storage happens. -/

structure KBPoint where
  id : List Char
  vector : List ℚ
  text : List Char
  timestamp : Int
  version_date : String
  chunk_index : Nat
  total_chunks : Nat

/-- The points of one embedded sub-batch: `zip(batch, embeddings)` with
global chunk index `j` counting from the sub-batch's base offset. -/
def mkPoints (path : List Char) (timestamp : Int) (vd : String)
    (total : Nat) : List (List Char) → List (List ℚ) → Nat → List KBPoint
  | t :: ts, e :: es, j =>
    { id := create_versioned_id path timestamp (Int.ofNat j)
      vector := e, text := t, timestamp := timestamp, version_date := vd
      chunk_index := j, total_chunks := total }
      :: mkPoints path timestamp vd total ts es (j + 1)
  | _, _, _ => []

/-- The `for i in range(0, len(chunks), 16)` loop of `_process_chunks`:
`base` is the global index of the sub-batch's first chunk; a sub-batch whose
embedding count mismatches is dropped whole. -/
def processBatches (embedBatch : List (List Char) → List (List ℚ))
    (path : List Char) (timestamp : Int) (vd : String) (total : Nat) :
    List (List (List Char)) → Nat → List KBPoint
  | [], _ => []
  | b :: rest, base =>
    let embs := embedBatch b
    if embs.length = b.length then
      mkPoints path timestamp vd total b embs base
        ++ processBatches embedBatch path timestamp vd total rest
          (base + b.length)
    else processBatches embedBatch path timestamp vd total rest
      (base + b.length)

/-- `_process_chunks(chunks, metadata, collection)`; `upsertOk` is the upsert
oracle passed through to `add_points`. -/
def process_chunks (embedBatch : List (List Char) → List (List ℚ))
    (upsertOk : Nat → Nat → Bool) (path : List Char) (timestamp : Int)
    (vd : String) (chunks : List (List Char)) : Bool × Nat :=
  let pts := processBatches embedBatch path timestamp vd chunks.length
    (chunksOf 16 chunks) 0
  if pts.isEmpty then (false, 0)
  else if (add_points upsertOk pts).1 then (true, pts.length)
  else (false, 0)

/-- `add_document` after a successful read of `content`: chunk, bail out
with `(False, 0)` when there are no chunks, else `_process_chunks`.  The
`Option` propagates the chunker's possible divergence. -/
def add_document (embedBatch : List (List Char) → List (List ℚ))
    (upsertOk : Nat → Nat → Bool) (path : List Char) (timestamp : Int)
    (vd : String) (maxSize overlap fuel : Nat) (content : List Char) :
    Option (Bool × Nat) :=
  (chunk_text content maxSize overlap fuel).map (fun chunks =>
    if chunks = [] then (false, 0)
    else process_chunks embedBatch upsertOk path timestamp vd chunks)

/-! ## Theorems

First the helper lemmas, then one theorem per claim (with witnesses and
counterexamples where required). -/

theorem chunkLoop_fix_zero (fuel : Nat) (acc : List (List Char)) :
    chunkLoop elevenAs 10 10 fuel 0 acc = none := by
  induction fuel generalizing acc with
  | zero => rfl
  | succ n ih => exact ih (acc ++ [pySlice elevenAs 0 10])

theorem chunkLoop_fix_four (fuel : Nat) (acc : List (List Char)) :
    chunkLoop elevenAs 10 7 fuel 4 acc = none := by
  induction fuel generalizing acc with
  | zero => rfl
  | succ n ih => exact ih (acc ++ [pySlice elevenAs 4 11])

theorem chunkLoop_fix_six (fuel : Nat) (acc : List (List Char)) :
    chunkLoop elevenAs 10 5 fuel 6 acc = none := by
  induction fuel generalizing acc with
  | zero => rfl
  | succ n ih => exact ih (acc ++ [pySlice elevenAs 6 11])

/-- Claim C1: the claim asserts that the implementation clamps `overlap` to
at most `max_size - 1` so that `overlap >= max_size` cannot cause
non-termination, and that for `overlap < max_size` every iteration makes
strictly positive progress.  Neither holds of the code: with
`text = "A" * 11`, `max_size = 10` the loop never terminates for
`overlap = 10` (no clamp exists: the next start `end - overlap` equals the
previous start `0` forever) and also never terminates for `overlap = 7 <
max_size` (once `end` reaches `len(text)` the next start is the constant
`len(text) - overlap`, zero progress).  With fuel modelling iterations,
the function returns `none` — divergence — for every fuel. -/
theorem chunk_text_unclamped_diverges :
    (∀ fuel, chunk_text elevenAs 10 10 fuel = none) ∧
    (∀ fuel, chunk_text elevenAs 10 7 fuel = none) := by
  constructor
  · intro fuel
    exact chunkLoop_fix_zero fuel []
  · intro fuel
    match fuel with
    | 0 => rfl
    | 1 => rfl
    | n + 2 =>
      exact chunkLoop_fix_four n
        (([] ++ [pySlice elevenAs 0 10]) ++ [pySlice elevenAs 3 11])

/-- Claim C4: the claim asserts that for non-empty text longer than
`max_size` the chunker returns at least two chunks reconstructing the text.
The code instead never returns: for `text = "A" * 11`, `max_size = 10`,
`overlap = 5` the loop reaches `start = 6`, where `end = len(text) = 11`
and the next start is `11 - 5 = 6` again, forever.  The modelled function
yields `none` — divergence — for every fuel, so no chunk list (of any
length) is ever produced. -/
theorem chunk_text_multi_chunk_diverges :
    ∀ fuel, chunk_text elevenAs 10 5 fuel = none := by
  intro fuel
  match fuel with
  | 0 => rfl
  | 1 => rfl
  | n + 2 =>
    exact chunkLoop_fix_six n
      (([] ++ [pySlice elevenAs 0 10]) ++ [pySlice elevenAs 5 11])

/-- Claim C5 (counterexample): for the empty text — which has
`len(text) <= max_size` — `chunk_text` returns the empty chunk list, not a
single chunk equal to the (empty) input, because the `if not text` guard
fires first. -/
theorem chunk_text_empty_not_single :
    chunk_text [] 3800 100 1 = some [] ∧
      chunk_text [] 3800 100 1 ≠ some [[]] := by
  exact ⟨rfl, by decide⟩

/-- Claim C5 (amended): for every NON-empty text with
`len(text) <= max_size`, `chunk_text` returns exactly one chunk equal to
the whole input text. -/
theorem chunk_text_single_chunk (text : List Char) (maxSize overlap fuel : Nat)
    (hne : text ≠ []) (hle : text.length ≤ maxSize) :
    chunk_text text maxSize overlap fuel = some [text] := by
  unfold chunk_text
  rw [if_neg hne, if_pos hle]

/-- Witness for the amended C5 at `text = "a"`, `max_size = 3800`,
`overlap = 100` (the configured defaults). -/
theorem chunk_text_single_chunk_witness :
    chunk_text ['a'] 3800 100 0 = some [['a']] :=
  chunk_text_single_chunk ['a'] 3800 100 0 (by decide) (by decide)

/-- Claim C9: `add_document` on a 0-byte file: the read succeeds with empty
content, chunking the empty text produces no chunks, and the call returns
`(False, 0)` before any embedding or upsert happens (the embedding and
upsert oracles are arbitrary and unused). -/
theorem add_document_empty_file (embedBatch : List (List Char) → List (List ℚ))
    (upsertOk : Nat → Nat → Bool) (path : List Char) (timestamp : Int)
    (vd : String) (maxSize overlap fuel : Nat) :
    add_document embedBatch upsertOk path timestamp vd maxSize overlap fuel []
      = some (false, 0) := rfl

theorem digitChar_toNat (d : Nat) (h : d < 10) :
    (digitChar d).toNat = 48 + d := by
  interval_cases d <;> rfl

theorem digitChar_ne_underscore (d : Nat) (h : d < 10) : digitChar d ≠ '_' := by
  interval_cases d <;> decide

theorem digitChar_ne_minus (d : Nat) (h : d < 10) : digitChar d ≠ '-' := by
  interval_cases d <;> decide

theorem mem_natStr (n : Nat) : ∀ c ∈ natStr n, ∃ d, d < 10 ∧ c = digitChar d := by
  induction n using Nat.strong_induction_on with
  | _ n ih =>
    intro c hc
    rw [natStr.eq_def] at hc
    by_cases h : n < 10
    · rw [if_pos h] at hc
      simp only [List.mem_singleton] at hc
      exact ⟨n, h, hc⟩
    · rw [if_neg h] at hc
      rcases List.mem_append.mp hc with h1 | h2
      · exact ih (n / 10) (Nat.div_lt_self (by omega) (by omega)) c h1
      · simp only [List.mem_singleton] at h2
        exact ⟨n % 10, Nat.mod_lt _ (by omega), h2⟩

theorem underscore_not_mem_natStr (n : Nat) : '_' ∉ natStr n := by
  intro hmem
  obtain ⟨d, hd, hc⟩ := mem_natStr n '_' hmem
  exact digitChar_ne_underscore d hd hc.symm

theorem minus_not_mem_natStr (n : Nat) : '-' ∉ natStr n := by
  intro hmem
  obtain ⟨d, hd, hc⟩ := mem_natStr n '-' hmem
  exact digitChar_ne_minus d hd hc.symm

theorem natStr_ne_nil (n : Nat) : natStr n ≠ [] := by
  rw [natStr.eq_def]
  by_cases h : n < 10
  · rw [if_pos h]; simp
  · rw [if_neg h]; simp

theorem digitsVal_natStr (n : Nat) : digitsVal (natStr n) = n := by
  induction n using Nat.strong_induction_on with
  | _ n ih =>
    rw [natStr.eq_def]
    by_cases h : n < 10
    · rw [if_pos h]
      show 10 * 0 + ((digitChar n).toNat - 48) = n
      rw [digitChar_toNat n h]
      omega
    · rw [if_neg h]
      unfold digitsVal
      rw [List.foldl_append]
      show 10 * digitsVal (natStr (n / 10)) + ((digitChar (n % 10)).toNat - 48) = n
      rw [ih (n / 10) (Nat.div_lt_self (by omega) (by omega)),
        digitChar_toNat _ (Nat.mod_lt _ (by omega))]
      omega

theorem natStr_inj {m n : Nat} (h : natStr m = natStr n) : m = n := by
  have hm := digitsVal_natStr m
  rw [h, digitsVal_natStr] at hm
  exact hm.symm

theorem underscore_not_mem_intStr (i : Int) : '_' ∉ intStr i := by
  unfold intStr
  by_cases h : i < 0
  · rw [if_pos h]
    intro hmem
    rcases List.mem_cons.mp hmem with h1 | h2
    · exact absurd h1 (by decide)
    · exact underscore_not_mem_natStr _ h2
  · rw [if_neg h]
    exact underscore_not_mem_natStr _

theorem intStr_inj {i j : Int} (h : intStr i = intStr j) : i = j := by
  unfold intStr at h
  by_cases hi : i < 0 <;> by_cases hj : j < 0
  · rw [if_pos hi, if_pos hj] at h
    have ht := natStr_inj (List.cons.inj h).2
    omega
  · rw [if_pos hi, if_neg hj] at h
    have : '-' ∈ natStr j.toNat := by
      rw [← h]; exact List.mem_cons_self _ _
    exact absurd this (minus_not_mem_natStr _)
  · rw [if_neg hi, if_pos hj] at h
    have : '-' ∈ natStr i.toNat := by
      rw [h]; exact List.mem_cons_self _ _
    exact absurd this (minus_not_mem_natStr _)
  · rw [if_neg hi, if_neg hj] at h
    have := natStr_inj h
    omega

/-- Cancellation around the last separator: the renderings of `timestamp`
and `chunk_index` contain no underscore, so the final `'_'`-delimited token
of the concatenated name is unambiguous. -/
theorem append_underscore_inj :
    ∀ {p₁ : List Char} {p₂ s₁ s₂ : List Char}, '_' ∉ s₁ → '_' ∉ s₂ →
      p₁ ++ '_' :: s₁ = p₂ ++ '_' :: s₂ → p₁ = p₂ ∧ s₁ = s₂ := by
  intro p₁
  induction p₁ with
  | nil =>
    intro p₂ s₁ s₂ hs₁ hs₂ h
    cases p₂ with
    | nil =>
      exact ⟨rfl, (List.cons.inj h).2⟩
    | cons b p₂ =>
      obtain ⟨hb, ht⟩ := List.cons.inj h
      exfalso
      apply hs₁
      rw [ht]
      exact List.mem_append.mpr (Or.inr (List.mem_cons_self _ _))
  | cons a p₁ ih =>
    intro p₂ s₁ s₂ hs₁ hs₂ h
    cases p₂ with
    | nil =>
      obtain ⟨hb, ht⟩ := List.cons.inj h
      exfalso
      apply hs₂
      rw [← ht]
      exact List.mem_append.mpr (Or.inr (List.mem_cons_self _ _))
    | cons b p₂ =>
      obtain ⟨hb, ht⟩ := List.cons.inj h
      obtain ⟨hp, hs⟩ := ih hs₁ hs₂ ht
      exact ⟨by rw [hb, hp], hs⟩

theorem create_versioned_id_inj {p₁ p₂ : List Char} {t₁ i₁ t₂ i₂ : Int}
    (h : create_versioned_id p₁ t₁ i₁ = create_versioned_id p₂ t₂ i₂) :
    p₁ = p₂ ∧ t₁ = t₂ ∧ i₁ = i₂ := by
  unfold create_versioned_id at h
  obtain ⟨h1, h2⟩ := append_underscore_inj
    (underscore_not_mem_intStr i₁) (underscore_not_mem_intStr i₂) h
  obtain ⟨h3, h4⟩ := append_underscore_inj
    (underscore_not_mem_intStr t₁) (underscore_not_mem_intStr t₂) h1
  exact ⟨h3, intStr_inj h4, intStr_inj h2⟩

/-- Claim C6: `create_versioned_id` hashes
`name = f"{path}_{timestamp}_{chunk_index}"` through the fixed deterministic
`uuid5(NAMESPACE_URL, ·)`.  At the level of the hash input: it is
deterministic, consecutive chunk indices give different identifiers, and
more generally distinct `(path, timestamp, chunk_index)` triples give
distinct identifiers (the decimal renderings of the two integers contain no
underscore, so the concatenation is injective even for paths containing
underscores). -/
theorem create_versioned_id_identity :
    (∀ (p : List Char) (t i : Int),
      create_versioned_id p t i = create_versioned_id p t i) ∧
    (∀ (p : List Char) (t i : Int),
      create_versioned_id p t i ≠ create_versioned_id p t (i + 1)) ∧
    (∀ (p₁ : List Char) (t₁ i₁ : Int) (p₂ : List Char) (t₂ i₂ : Int),
      create_versioned_id p₁ t₁ i₁ = create_versioned_id p₂ t₂ i₂ →
        p₁ = p₂ ∧ t₁ = t₂ ∧ i₁ = i₂) := by
  refine ⟨fun p t i => rfl, ?_, fun p₁ t₁ i₁ p₂ t₂ i₂ h => create_versioned_id_inj h⟩
  intro p t i h
  have := (create_versioned_id_inj h).2.2
  omega

/-- Witness for C6: applying the distinctness direction at the concrete
triple `("a", 3, 0)` against itself. -/
theorem create_versioned_id_identity_witness :
    ['a'] = ['a'] ∧ (3 : Int) = 3 ∧ (0 : Int) = 0 :=
  create_versioned_id_identity.2.2 ['a'] 3 0 ['a'] 3 0 rfl

theorem chunksOfAux_flatten (n : Nat) (hn : n ≠ 0) :
    ∀ (fuel : Nat) (l : List α), l.length ≤ fuel →
      (chunksOfAux n fuel l).flatten = l := by
  intro fuel
  induction fuel with
  | zero =>
    intro l hl
    have hnil : l = [] := List.length_eq_zero.mp (Nat.le_zero.mp hl)
    subst hnil
    rfl
  | succ m ih =>
    intro l hl
    match l with
    | [] => rfl
    | x :: xs =>
      cases n with
      | zero => exact absurd rfl hn
      | succ k =>
        have hrec : ((x :: xs).drop (k + 1)).length ≤ m := by
          simp only [List.length_drop, List.length_cons]
          simp only [List.length_cons] at hl
          omega
        show ((x :: xs).take (k + 1)
          :: chunksOfAux (k + 1) m ((x :: xs).drop (k + 1))).flatten = x :: xs
        rw [List.flatten_cons, ih _ hrec]
        exact List.take_append_drop (k + 1) (x :: xs)

theorem chunksOf_flatten (n : Nat) (hn : n ≠ 0) (l : List α) :
    (chunksOf n l).flatten = l := by
  unfold chunksOf
  rw [if_neg hn]
  exact chunksOfAux_flatten n hn l.length l le_rfl

theorem chunksOfAux_mem_length (n : Nat) (hn : n ≠ 0) :
    ∀ (fuel : Nat) (l : List α) (c : List α), c ∈ chunksOfAux n fuel l →
      c.length ≤ n ∧ c ≠ [] := by
  intro fuel
  induction fuel with
  | zero =>
    intro l c hc
    cases l with
    | nil => exact absurd hc (List.not_mem_nil c)
    | cons x xs => exact absurd hc (List.not_mem_nil c)
  | succ m ih =>
    intro l c hc
    match l with
    | [] => exact absurd hc (List.not_mem_nil c)
    | x :: xs =>
      cases n with
      | zero => exact absurd rfl hn
      | succ k =>
        rcases List.mem_cons.mp hc with h | h
        · subst h
          refine ⟨by simp, ?_⟩
          simp [List.take_succ_cons]
        · exact ih _ c h

theorem chunksOf_mem_length (n : Nat) (hn : n ≠ 0) (l : List α) (c : List α)
    (hc : c ∈ chunksOf n l) : c.length ≤ n ∧ c ≠ [] := by
  unfold chunksOf at hc
  rw [if_neg hn] at hc
  exact chunksOfAux_mem_length n hn l.length l c hc

theorem attemptLoop_length_of_appends (embedFn : List Char → List ℚ)
    (dim : Nat) (cleaned : List (List Char)) (outcome : Nat → ApiOutcome) :
    ∀ (left a : Nat), appendsWithin outcome left a = true →
      (attemptLoop embedFn dim cleaned outcome left a).length = cleaned.length := by
  intro left
  induction left with
  | zero =>
    intro a h
    exact absurd h (by simp [appendsWithin])
  | succ m ih =>
    intro a h
    unfold attemptLoop
    unfold appendsWithin at h
    cases houtcome : outcome a
    case ok => exact List.length_map cleaned embedFn
    case rateLimit =>
      rw [houtcome] at h
      exact ih (a + 1) h
    case timeoutOrConn =>
      rw [houtcome] at h
      exact ih (a + 1) h
    case apiErr =>
      rw [houtcome] at h
      show (if m = 0 then List.replicate cleaned.length (zeroVec dim)
        else attemptLoop embedFn dim cleaned outcome m (a + 1)).length
        = cleaned.length
      have h2 : (if m = 0 then true
          else appendsWithin outcome m (a + 1)) = true := h
      by_cases hm : m = 0
      · rw [if_pos hm]
        exact List.length_replicate _ _
      · rw [if_neg hm]
        rw [if_neg hm] at h2
        exact ih (a + 1) h2
    case otherErr => exact List.length_replicate _ _

theorem attemptLoop_all_apiErr (embedFn : List Char → List ℚ) (dim : Nat)
    (cleaned : List (List Char)) (outcome : Nat → ApiOutcome) :
    ∀ (left a : Nat), left ≠ 0 → (∀ j, outcome j = ApiOutcome.apiErr) →
      attemptLoop embedFn dim cleaned outcome left a
        = List.replicate cleaned.length (zeroVec dim) := by
  intro left
  induction left with
  | zero => intro a h _; exact absurd rfl h
  | succ m ih =>
    intro a _ hall
    unfold attemptLoop
    rw [hall a]
    show (if m = 0 then List.replicate cleaned.length (zeroVec dim)
      else attemptLoop embedFn dim cleaned outcome m (a + 1))
      = List.replicate cleaned.length (zeroVec dim)
    by_cases hm : m = 0
    · rw [if_pos hm]
    · rw [if_neg hm]
      exact ih (a + 1) hm hall

theorem batchLoop_length (embedFn : List Char → List ℚ)
    (dim maxRetries : Nat) (outcomes : Nat → Nat → ApiOutcome) :
    ∀ (bs : List (List (List Char))) (k : Nat),
      (∀ j, j < bs.length → appendsWithin (outcomes (k + j)) maxRetries 0 = true) →
      (batchLoop embedFn dim maxRetries outcomes bs k).length
        = (bs.map List.length).sum := by
  intro bs
  induction bs with
  | nil => intro k _; rfl
  | cons b rest ih =>
    intro k h
    show (attemptLoop embedFn dim (b.map cleanText) (outcomes k) maxRetries 0
      ++ batchLoop embedFn dim maxRetries outcomes rest (k + 1)).length
      = ((b :: rest).map List.length).sum
    rw [List.length_append,
      attemptLoop_length_of_appends embedFn dim (b.map cleanText) (outcomes k)
        maxRetries 0 (by simpa using h 0 (by simp)),
      List.length_map]
    rw [ih (k + 1) (fun j hj => by
      have hj1 := h (j + 1) (by simp only [List.length_cons]; omega)
      have heq : k + (j + 1) = k + 1 + j := by omega
      rwa [heq] at hj1)]
    simp

/-- Claim C3 (counterexample): a single-text batch whose every attempt fails
with `RateLimitError` appends nothing — the transient-error branches of the
retry loop fall off the end without placeholders — so the returned vector
list is empty although the input has length one. -/
theorem get_embeddings_batch_transient_shortens :
    get_embeddings_batch (fun _ => []) 3072 5 (fun _ _ => ApiOutcome.rateLimit)
      16 [['h', 'i']] = []
      ∧ ([['h', 'i']] : List (List Char)).length = 1 :=
  ⟨rfl, rfl⟩

/-- Claim C3 (amended): `get_embeddings_batch` preserves the input length
whenever every sub-batch's retry loop stops by appending — success, an
`OpenAIError` on the final attempt (zero-vector placeholders), or a generic
exception (zero-vector placeholders).  But a sub-batch whose every attempt
raises a transient error (rate limit, timeout, connection) contributes
nothing, shortening the result.  Second conjunct: a sub-batch whose attempts
all fail with `OpenAIError` is indeed replaced by all-zero vectors of the
configured dimensionality, one per input text. -/
theorem get_embeddings_batch_length :
    (∀ (embedFn : List Char → List ℚ) (dim maxRetries : Nat)
      (outcomes : Nat → Nat → ApiOutcome) (chunkSize : Nat)
      (texts : List (List Char)), chunkSize ≠ 0 →
      (∀ k, k < (chunksOf chunkSize texts).length →
        appendsWithin (outcomes k) maxRetries 0 = true) →
      (get_embeddings_batch embedFn dim maxRetries outcomes chunkSize
        texts).length = texts.length) ∧
    (∀ (embedFn : List Char → List ℚ) (dim : Nat)
      (cleaned : List (List Char)) (outcome : Nat → ApiOutcome)
      (left a : Nat), left ≠ 0 → (∀ j, outcome j = ApiOutcome.apiErr) →
      attemptLoop embedFn dim cleaned outcome left a
        = List.replicate cleaned.length (zeroVec dim)) := by
  constructor
  · intro embedFn dim maxRetries outcomes chunkSize texts hcs h
    unfold get_embeddings_batch
    rw [batchLoop_length embedFn dim maxRetries outcomes _ 0
      (fun j hj => by simpa using h j hj)]
    rw [← List.length_flatten, chunksOf_flatten chunkSize hcs texts]
  · exact attemptLoop_all_apiErr

/-- Witness for the amended C3: one text, every call succeeding. -/
theorem get_embeddings_batch_length_witness :
    (get_embeddings_batch (fun _ => []) 3072 5 (fun _ _ => ApiOutcome.ok)
      16 [['h', 'i']]).length = 1 :=
  get_embeddings_batch_length.1 (fun _ => []) 3072 5 (fun _ _ => ApiOutcome.ok)
    16 [['h', 'i']] (by decide) (fun k _ => rfl)

theorem tryBatch_iff (ok : Nat → Bool) :
    ∀ (left a : Nat), tryBatch ok left a = true
      ↔ ∃ j, j < left ∧ ok (a + j) = true := by
  intro left
  induction left with
  | zero =>
    intro a
    simp [tryBatch]
  | succ m ih =>
    intro a
    unfold tryBatch
    by_cases h : ok a
    · rw [if_pos h]
      constructor
      · intro _
        exact ⟨0, by omega, by simpa using h⟩
      · intro _
        rfl
    · rw [if_neg h, ih (a + 1)]
      constructor
      · rintro ⟨j, hj, hok⟩
        refine ⟨j + 1, by omega, ?_⟩
        have heq : a + (j + 1) = a + 1 + j := by omega
        rwa [heq]
      · rintro ⟨j, hj, hok⟩
        cases j with
        | zero =>
          rw [Nat.add_zero] at hok
          exact absurd hok h
        | succ i =>
          refine ⟨i, by omega, ?_⟩
          have heq : a + 1 + i = a + (i + 1) := by omega
          rwa [heq]

theorem addLoop_all_ok (ok : Nat → Nat → Bool) (total : Nat) :
    ∀ (bs : List (List α)) (k succ : Nat) (committed : List (List α)),
      (∀ j, j < bs.length → tryBatch (ok (k + j)) MAX_RETRIES 0 = true) →
      addLoop ok total bs k succ committed
        = (decide (succ + bs.length = total), committed ++ bs) := by
  intro bs
  induction bs with
  | nil =>
    intro k succ committed _
    simp [addLoop]
  | cons b rest ih =>
    intro k succ committed h
    unfold addLoop
    rw [if_pos (by simpa using h 0 (by simp))]
    rw [ih (k + 1) (succ + 1) (committed ++ [b]) (fun j hj => by
      have hj1 := h (j + 1) (by simp only [List.length_cons]; omega)
      have heq : k + (j + 1) = k + 1 + j := by omega
      rwa [heq] at hj1)]
    refine congrArg₂ Prod.mk ?_ (by simp)
    rw [decide_eq_decide]
    simp only [List.length_cons]
    omega

theorem addLoop_first_fail (ok : Nat → Nat → Bool) (total : Nat) :
    ∀ (bs : List (List α)) (k succ : Nat) (committed : List (List α)) (j : Nat),
      j < bs.length → tryBatch (ok (k + j)) MAX_RETRIES 0 = false →
      (∀ i, i < j → tryBatch (ok (k + i)) MAX_RETRIES 0 = true) →
      addLoop ok total bs k succ committed = (false, committed ++ bs.take j) := by
  intro bs
  induction bs with
  | nil =>
    intro k succ committed j hj _ _
    exact absurd hj (by simp)
  | cons b rest ih =>
    intro k succ committed j hj hfail hpre
    cases j with
    | zero =>
      unfold addLoop
      rw [if_neg (by rw [Nat.add_zero] at hfail; simp [hfail])]
      simp
    | succ i =>
      unfold addLoop
      rw [if_pos (by simpa using hpre 0 (by omega))]
      rw [ih (k + 1) (succ + 1) (committed ++ [b]) i
        (by simp only [List.length_cons] at hj; omega)
        (by rw [show k + 1 + i = k + (i + 1) from by omega]; exact hfail)
        (fun i2 hi2 => by
          have hp := hpre (i2 + 1) (by omega)
          have heq : k + (i2 + 1) = k + 1 + i2 := by omega
          rwa [heq] at hp)]
      simp [List.take_succ_cons]

theorem add_points_ne_nil (ok : Nat → Nat → Bool) (points : List α)
    (hne : points ≠ []) :
    add_points ok points
      = addLoop ok (batchesOf points).length (batchesOf points) 0 0 [] := by
  unfold add_points
  cases points with
  | nil => exact absurd rfl hne
  | cons p ps => rfl

/-- Claim C8: `add_points` splits a non-empty point list into batches of at
most `MAX_BATCH_SIZE = 100` which concatenate back to the input; a batch is
retried up to `MAX_RETRIES = 3` times and commits exactly when some attempt
within the ceiling succeeds; the call returns success precisely when every
batch is committed; and when it fails, the committed state is the prefix of
batches before the first one that exhausted its retries — never rolled
back. -/
theorem add_points_batching (ok : Nat → Nat → Bool) (points : List α)
    (hne : points ≠ []) :
    (∀ b ∈ batchesOf points, b.length ≤ MAX_BATCH_SIZE ∧ b ≠ []) ∧
    (batchesOf points).flatten = points ∧
    (∀ f : Nat → Bool, tryBatch f MAX_RETRIES 0 = true
      ↔ ∃ a, a < MAX_RETRIES ∧ f a = true) ∧
    ((add_points ok points).1 = true
      ↔ (add_points ok points).2 = batchesOf points) ∧
    ((add_points ok points).1 = false →
      ∃ k, k < (batchesOf points).length
        ∧ tryBatch (ok k) MAX_RETRIES 0 = false
        ∧ (add_points ok points).2 = (batchesOf points).take k) := by
  have hlen : points.length ≠ 0 := by
    intro h
    exact hne (List.length_eq_zero.mp h)
  have hn : min MAX_BATCH_SIZE points.length ≠ 0 := by
    unfold MAX_BATCH_SIZE
    omega
  refine ⟨?_, ?_, ?_, ?_⟩
  · intro b hb
    obtain ⟨h1, h2⟩ := chunksOf_mem_length _ hn points b hb
    exact ⟨le_trans h1 (Nat.min_le_left _ _), h2⟩
  · exact chunksOf_flatten _ hn points
  · intro f
    simpa using tryBatch_iff f MAX_RETRIES 0
  · rw [add_points_ne_nil ok points hne]
    by_cases hall : ∀ j, j < (batchesOf points).length →
        tryBatch (ok j) MAX_RETRIES 0 = true
    · rw [addLoop_all_ok ok _ (batchesOf points) 0 0 []
        (fun j hj => by simpa using hall j hj)]
      constructor
      · constructor
        · intro _
          simp
        · intro _
          simp
      · intro hfalse
        exfalso
        revert hfalse
        simp
    · push_neg at hall
      obtain ⟨j0, hj0⟩ := hall
      have hex : ∃ j, j < (batchesOf points).length
          ∧ tryBatch (ok j) MAX_RETRIES 0 = false := by
        refine ⟨j0, hj0.1, ?_⟩
        cases h : tryBatch (ok j0) MAX_RETRIES 0 with
        | false => rfl
        | true => exact absurd h hj0.2
      classical
      have hP : ∃ j, j < (batchesOf points).length
          ∧ tryBatch (ok j) MAX_RETRIES 0 = false := hex
      set jm := Nat.find hP with hjm
      have hspec := Nat.find_spec hP
      have hmin : ∀ i, i < jm → tryBatch (ok i) MAX_RETRIES 0 = true := by
        intro i hi
        have hni := Nat.find_min hP hi
        cases h : tryBatch (ok i) MAX_RETRIES 0 with
        | true => rfl
        | false =>
          exact absurd ⟨lt_trans (hjm ▸ hi) hspec.1, h⟩ hni
      rw [addLoop_first_fail ok _ (batchesOf points) 0 0 [] jm hspec.1
        (by simpa using hspec.2) (fun i hi => by simpa using hmin i hi)]
      have htake : (((batchesOf points).take jm).length)
          = jm := by
        rw [List.length_take]
        omega
      constructor
      · constructor
        · intro h
          exact absurd h (by simp)
        · intro h
          exfalso
          have h2 : List.take jm (batchesOf points) = batchesOf points := by
            simpa using h
          have h3 := congrArg List.length h2
          rw [htake] at h3
          omega
      · intro _
        exact ⟨jm, hspec.1, hspec.2, by simp⟩

/-- Witness for C8 at one point and an always-succeeding upsert. -/
theorem add_points_batching_witness :
    (add_points (fun _ _ => true) [(0 : Nat)]).1 = true := by
  have h := (add_points_batching (fun _ _ => true) [(0 : Nat)]
    (by decide)).2.2.2.1
  exact h.mpr rfl

/-- Claim C10: at the adapter level, upserting an empty point list returns
success immediately and commits nothing; separately, the orchestrator's
`_process_chunks` reports `(False, 0)` whenever zero points were produced. -/
theorem add_points_empty_success :
    (∀ (α : Type) (ok : Nat → Nat → Bool),
      add_points ok ([] : List α) = (true, [])) ∧
    (∀ (embedBatch : List (List Char) → List (List ℚ))
      (upsertOk : Nat → Nat → Bool) (path : List Char) (timestamp : Int)
      (vd : String) (chunks : List (List Char)),
      processBatches embedBatch path timestamp vd chunks.length
        (chunksOf 16 chunks) 0 = [] →
      process_chunks embedBatch upsertOk path timestamp vd chunks
        = (false, 0)) := by
  constructor
  · intro α ok
    rfl
  · intro embedBatch upsertOk path timestamp vd chunks h
    unfold process_chunks
    rw [h]
    rfl

/-- Witness for C10's orchestrator clause: one chunk whose embedding batch
comes back empty, so no points are produced. -/
theorem add_points_empty_success_witness :
    process_chunks (fun _ => []) (fun _ _ => true) [] 0 "" [['a']]
      = (false, 0) :=
  add_points_empty_success.2 (fun _ => []) (fun _ _ => true) [] 0 "" [['a']] rfl

theorem updateGroup_keys (groups : List (String × ScoredPoint)) (path : String)
    (h : ScoredPoint) :
    (updateGroup groups path h).map Prod.fst = groups.map Prod.fst := by
  unfold updateGroup
  rw [List.map_map]
  apply List.map_congr_left
  intro g _
  by_cases hg : g.1 = path
  · simp [hg]
  · simp [hg]

theorem findGroup_none_not_key {groups : List (String × ScoredPoint)}
    {path : String} (h : findGroup groups path = none) :
    path ∉ groups.map Prod.fst := by
  intro hmem
  obtain ⟨g, hg, hfst⟩ := List.mem_map.mp hmem
  unfold findGroup at h
  have hfind := Option.map_eq_none'.mp h
  have hng := List.find?_eq_none.mp hfind g hg
  simp [hfst] at hng

theorem findGroup_some_mem {groups : List (String × ScoredPoint)}
    {path : String} {ex : ScoredPoint} (h : findGroup groups path = some ex) :
    (path, ex) ∈ groups := by
  unfold findGroup at h
  obtain ⟨g, hfind, hsnd⟩ := Option.map_eq_some'.mp h
  have hmem := List.mem_of_find?_eq_some hfind
  have hpred : g.1 = path := by simpa using List.find?_some hfind
  have hg : g = (path, ex) := by
    cases g
    simp only [Prod.mk.injEq]
    exact ⟨hpred, hsnd⟩
  rwa [hg] at hmem

theorem nodup_key_unique {l : List (String × ScoredPoint)}
    (hnd : (l.map Prod.fst).Nodup) {p : String} {a b : ScoredPoint}
    (ha : (p, a) ∈ l) (hb : (p, b) ∈ l) : a = b := by
  induction l with
  | nil => exact absurd ha (List.not_mem_nil _)
  | cons g t ih =>
    rw [List.map_cons, List.nodup_cons] at hnd
    rcases List.mem_cons.mp ha with ha1 | ha1 <;>
      rcases List.mem_cons.mp hb with hb1 | hb1
    · rw [← ha1] at hb1
      exact ((Prod.mk.injEq _ _ _ _).mp hb1.symm).2
    · exfalso
      apply hnd.1
      rw [← ha1]
      simpa using List.mem_map_of_mem Prod.fst hb1
    · exfalso
      apply hnd.1
      rw [← hb1]
      simpa using List.mem_map_of_mem Prod.fst ha1
    · exact ih hnd.2 ha1 hb1

theorem hitPathOf_of_payload {hit : ScoredPoint} {pl : QPayload}
    (h : hit.payload = some pl) : hitPathOf hit = payloadPath pl := by
  unfold hitPathOf
  rw [h]

theorem stepGroup_inv {groups : List (String × ScoredPoint)}
    {hits : List ScoredPoint} (inv : GroupsInv groups hits)
    (hit : ScoredPoint) :
    GroupsInv (stepGroup groups hit) (hits ++ [hit]) := by
  obtain ⟨hnd, hval, hcov, hmax⟩ := inv
  unfold stepGroup
  cases hpl : hit.payload with
  | none =>
    refine ⟨hnd, ?_, ?_, ?_⟩
    · intro g hg
      obtain ⟨h1, h2, h3⟩ := hval g hg
      exact ⟨h1, h2, List.mem_append_left _ h3⟩
    · intro h hh hpayload
      rcases List.mem_append.mp hh with hh1 | hh1
      · exact hcov h hh1 hpayload
      · have heq : h = hit := by simpa using hh1
        rw [heq, hpl] at hpayload
        exact absurd rfl hpayload
    · intro g hg h hh hpayload hpath
      rcases List.mem_append.mp hh with hh1 | hh1
      · exact hmax g hg h hh1 hpayload hpath
      · have heq : h = hit := by simpa using hh1
        rw [heq, hpl] at hpayload
        exact absurd rfl hpayload
  | some pl =>
    have hpath_hit : hitPathOf hit = payloadPath pl := hitPathOf_of_payload hpl
    show GroupsInv
      (match findGroup groups (payloadPath pl) with
        | none => groups ++ [(payloadPath pl, hit)]
        | some ex =>
          if hitTimestamp hit > hitTimestamp ex then
            updateGroup groups (payloadPath pl) hit
          else groups)
      (hits ++ [hit])
    cases hfind : findGroup groups (payloadPath pl) with
    | none =>
      show GroupsInv (groups ++ [(payloadPath pl, hit)]) (hits ++ [hit])
      have hknew : payloadPath pl ∉ groups.map Prod.fst :=
        findGroup_none_not_key hfind
      refine ⟨?_, ?_, ?_, ?_⟩
      · rw [List.map_append]
        refine List.Nodup.append hnd (List.nodup_singleton _) ?_
        intro x hx hx2
        have hxp : x = payloadPath pl := by simpa using hx2
        rw [hxp] at hx
        exact hknew hx
      · intro g hg
        rcases List.mem_append.mp hg with hg1 | hg1
        · obtain ⟨h1, h2, h3⟩ := hval g hg1
          exact ⟨h1, h2, List.mem_append_left _ h3⟩
        · have hgeq : g = (payloadPath pl, hit) := by simpa using hg1
          rw [hgeq]
          refine ⟨by rw [hpl]; exact Option.some_ne_none pl, hpath_hit, ?_⟩
          exact List.mem_append_right _ (List.mem_singleton_self hit)
      · intro h hh hpayload
        rw [List.map_append]
        rcases List.mem_append.mp hh with hh1 | hh1
        · exact List.mem_append_left _ (hcov h hh1 hpayload)
        · have heq : h = hit := by simpa using hh1
          refine List.mem_append_right _ ?_
          rw [heq, hpath_hit]
          simp
      · intro g hg h hh hpayload hpath
        rcases List.mem_append.mp hg with hg1 | hg1 <;>
          rcases List.mem_append.mp hh with hh1 | hh1
        · exact hmax g hg1 h hh1 hpayload hpath
        · exfalso
          have heq : h = hit := by simpa using hh1
          rw [heq, hpath_hit] at hpath
          apply hknew
          rw [hpath]
          exact List.mem_map_of_mem Prod.fst hg1
        · exfalso
          have hgeq : g = (payloadPath pl, hit) := by simpa using hg1
          rw [hgeq] at hpath
          have hpath2 : hitPathOf h = payloadPath pl := hpath
          apply hknew
          rw [← hpath2]
          exact hcov h hh1 hpayload
        · have hgeq : g = (payloadPath pl, hit) := by simpa using hg1
          have heq : h = hit := by simpa using hh1
          rw [hgeq, heq]
    | some ex =>
      show GroupsInv
        (if hitTimestamp hit > hitTimestamp ex then
          updateGroup groups (payloadPath pl) hit
        else groups)
        (hits ++ [hit])
      have hexmem : (payloadPath pl, ex) ∈ groups := findGroup_some_mem hfind
      have hexkey : payloadPath pl ∈ groups.map Prod.fst :=
        List.mem_map_of_mem Prod.fst hexmem
      by_cases hts : hitTimestamp hit > hitTimestamp ex
      · rw [if_pos hts]
        refine ⟨?_, ?_, ?_, ?_⟩
        · rw [updateGroup_keys]
          exact hnd
        · intro g hg
          unfold updateGroup at hg
          obtain ⟨g0, hg0, hgeq⟩ := List.mem_map.mp hg
          by_cases hg0p : g0.1 = payloadPath pl
          · rw [if_pos hg0p] at hgeq
            rw [← hgeq]
            refine ⟨by rw [hpl]; exact Option.some_ne_none pl, hpath_hit, ?_⟩
            exact List.mem_append_right _ (List.mem_singleton_self hit)
          · rw [if_neg hg0p] at hgeq
            rw [← hgeq]
            obtain ⟨h1, h2, h3⟩ := hval g0 hg0
            exact ⟨h1, h2, List.mem_append_left _ h3⟩
        · intro h hh hpayload
          rw [updateGroup_keys]
          rcases List.mem_append.mp hh with hh1 | hh1
          · exact hcov h hh1 hpayload
          · have heq : h = hit := by simpa using hh1
            rw [heq, hpath_hit]
            exact hexkey
        · intro g hg h hh hpayload hpath
          unfold updateGroup at hg
          obtain ⟨g0, hg0, hgeq⟩ := List.mem_map.mp hg
          by_cases hg0p : g0.1 = payloadPath pl
          · rw [if_pos hg0p] at hgeq
            rcases List.mem_append.mp hh with hh1 | hh1
            · have hp2 : hitPathOf h = payloadPath pl := by
                rw [hpath, ← hgeq]
              have hle := hmax (payloadPath pl, ex) hexmem h hh1 hpayload hp2
              rw [← hgeq]
              exact le_trans hle (le_of_lt hts)
            · have heq : h = hit := by simpa using hh1
              rw [heq, ← hgeq]
          · rw [if_neg hg0p] at hgeq
            rcases List.mem_append.mp hh with hh1 | hh1
            · exact hmax g (hgeq ▸ hg0) h hh1 hpayload hpath
            · exfalso
              have heq : h = hit := by simpa using hh1
              rw [heq, hpath_hit] at hpath
              rw [← hgeq] at hpath
              exact hg0p hpath.symm
      · rw [if_neg hts]
        refine ⟨hnd, ?_, ?_, ?_⟩
        · intro g hg
          obtain ⟨h1, h2, h3⟩ := hval g hg
          exact ⟨h1, h2, List.mem_append_left _ h3⟩
        · intro h hh hpayload
          rcases List.mem_append.mp hh with hh1 | hh1
          · exact hcov h hh1 hpayload
          · have heq : h = hit := by simpa using hh1
            rw [heq, hpath_hit]
            exact hexkey
        · intro g hg h hh hpayload hpath
          rcases List.mem_append.mp hh with hh1 | hh1
          · exact hmax g hg h hh1 hpayload hpath
          · have heq : h = hit := by simpa using hh1
            have hgp : g = (g.1, g.2) := rfl
            have hgmem : (g.1, g.2) ∈ groups := hgp ▸ hg
            rw [heq, hpath_hit] at hpath
            rw [← hpath] at hgmem
            have hexeq : ex = g.2 := nodup_key_unique hnd hexmem hgmem
            rw [heq, ← hexeq]
            exact le_of_not_lt hts

theorem foldl_stepGroup_inv :
    ∀ (rest : List ScoredPoint) (groups : List (String × ScoredPoint))
      (hits : List ScoredPoint), GroupsInv groups hits →
      GroupsInv (List.foldl stepGroup groups rest) (hits ++ rest) := by
  intro rest
  induction rest with
  | nil =>
    intro groups hits inv
    simpa using inv
  | cons hit t ih =>
    intro groups hits inv
    have hstep := ih (stepGroup groups hit) (hits ++ [hit])
      (stepGroup_inv inv hit)
    rw [List.append_assoc] at hstep
    simpa using hstep

theorem latestGroups_inv (hits : List ScoredPoint) :
    GroupsInv (latestGroups hits) hits := by
  have h := foldl_stepGroup_inv hits [] []
    ⟨List.nodup_nil, by simp, by simp, by simp⟩
  simpa using h

theorem mem_latestOnlyFilter {hits : List ScoredPoint} {limit : Nat}
    {h : ScoredPoint} (hm : h ∈ latestOnlyFilter hits limit) :
    ∃ g ∈ latestGroups hits, g.2 = h := by
  unfold latestOnlyFilter at hm
  have h1 := List.mem_of_mem_take hm
  rw [List.mem_mergeSort] at h1
  obtain ⟨g, hg, hgeq⟩ := List.mem_map.mp h1
  exact ⟨g, hg, hgeq⟩

theorem latestOnlyFilter_pair :
    latestOnlyFilter [hitTs100, hitTs200] 1 = [hitTs200] := by
  have h : (latestGroups [hitTs100, hitTs200]).map (fun g => g.2)
      = [hitTs200] := rfl
  unfold latestOnlyFilter
  rw [h, List.mergeSort_singleton]
  rfl

theorem latestOnlyFilter_pair_rev :
    latestOnlyFilter [hitTs200, hitTs100] 1 = [hitTs200] := by
  have h : (latestGroups [hitTs200, hitTs100]).map (fun g => g.2)
      = [hitTs200] := rfl
  unfold latestOnlyFilter
  rw [h, List.mergeSort_singleton]
  rfl

/-- Claim C2: the latest-only collapse of `query` returns at most `limit`
hits, at most one per `metadata.path`; each returned hit is one of the
searched hits and carries the maximal timestamp among the searched hits of
its path; the result is ranked by similarity score descending; and in the
concrete scenario — two hits for path `doc.md`, timestamp 100 with score
0.9 and timestamp 200 with score 0.7, `limit = 1` — only the timestamp-200
hit is returned (whichever order the search yielded them in). -/
theorem query_latest_only_collapse :
    (∀ (hits : List ScoredPoint) (limit : Nat),
      (latestOnlyFilter hits limit).length ≤ limit) ∧
    (∀ (hits : List ScoredPoint) (limit : Nat),
      ((latestOnlyFilter hits limit).map hitPathOf).Nodup) ∧
    (∀ (hits : List ScoredPoint) (limit : Nat) (h : ScoredPoint),
      h ∈ latestOnlyFilter hits limit → h ∈ hits ∧
        ∀ h2 ∈ hits, h2.payload ≠ none → hitPathOf h2 = hitPathOf h →
          hitTimestamp h2 ≤ hitTimestamp h) ∧
    (∀ (hits : List ScoredPoint) (limit : Nat),
      (latestOnlyFilter hits limit).Pairwise
        (fun a b => b.score ≤ a.score)) ∧
    latestOnlyFilter [hitTs100, hitTs200] 1 = [hitTs200] ∧
    latestOnlyFilter [hitTs200, hitTs100] 1 = [hitTs200] := by
  refine ⟨?_, ?_, ?_, ?_, latestOnlyFilter_pair, latestOnlyFilter_pair_rev⟩
  · intro hits limit
    unfold latestOnlyFilter
    rw [List.length_take]
    exact min_le_left _ _
  · intro hits limit
    have hinv := latestGroups_inv hits
    have hkeys : ((latestGroups hits).map (fun g => g.2)).map hitPathOf
        = (latestGroups hits).map Prod.fst := by
      rw [List.map_map]
      apply List.map_congr_left
      intro g hg
      exact (hinv.2.1 g hg).2.1
    have hnodup : (((latestGroups hits).map (fun g => g.2)).mergeSort
        (fun a b => decide (b.score ≤ a.score))).map hitPathOf |>.Nodup := by
      have hperm := (List.mergeSort_perm
        ((latestGroups hits).map (fun g => g.2))
        (fun a b => decide (b.score ≤ a.score))).map hitPathOf
      refine hperm.nodup_iff.mpr ?_
      rw [hkeys]
      exact hinv.1
    unfold latestOnlyFilter
    rw [List.map_take]
    exact List.Nodup.sublist (List.take_sublist _ _) hnodup
  · intro hits limit h hm
    obtain ⟨g, hg, hgeq⟩ := mem_latestOnlyFilter hm
    have hinv := latestGroups_inv hits
    obtain ⟨hpayload, hpath, hmem⟩ := hinv.2.1 g hg
    refine ⟨hgeq ▸ hmem, ?_⟩
    intro h2 hh2 hp2 hpath2
    have hpath3 : hitPathOf h2 = g.1 := by
      rw [hpath2, ← hgeq, hpath]
    have := hinv.2.2.2 g hg h2 hh2 hp2 hpath3
    rwa [hgeq] at this
  · intro hits limit
    have hs := @List.sorted_mergeSort ScoredPoint
      (fun a b => decide (b.score ≤ a.score))
      (fun a b c hab hbc => by
        simp only [decide_eq_true_eq] at hab hbc ⊢
        exact le_trans hbc hab)
      (fun a b => by
        simp only [Bool.or_eq_true, decide_eq_true_eq]
        exact le_total b.score a.score)
      ((latestGroups hits).map (fun g => g.2))
    have hs2 : (((latestGroups hits).map (fun g => g.2)).mergeSort
        (fun a b => decide (b.score ≤ a.score))).Pairwise
        (fun a b => b.score ≤ a.score) := by
      refine hs.imp ?_
      intro a b hab
      simpa using hab
    unfold latestOnlyFilter
    exact hs2.sublist (List.take_sublist _ _)

/-- Witness for C2's provenance-and-maximality conjunct, applied at the
concrete two-hit scenario. -/
theorem query_latest_only_collapse_witness :
    hitTs200 ∈ [hitTs100, hitTs200] :=
  (query_latest_only_collapse.2.2.1 [hitTs100, hitTs200] 1 hitTs200
    (by rw [latestOnlyFilter_pair]; exact List.mem_singleton_self _)).1

theorem mem_insertVersion {vers : List (Int × String)} {ts : Int} {d : String}
    {v : Int × String} (h : v ∈ insertVersion vers ts d) :
    v ∈ vers ∨ v = (ts, d) := by
  unfold insertVersion at h
  by_cases hk : vers.any (fun v => decide (v.1 = ts))
  · rw [if_pos hk] at h
    obtain ⟨v0, hv0, hveq⟩ := List.mem_map.mp h
    by_cases hv0k : v0.1 = ts
    · rw [if_pos hv0k] at hveq
      right
      exact hveq.symm
    · rw [if_neg hv0k] at hveq
      left
      exact hveq ▸ hv0
  · rw [if_neg hk] at h
    rcases List.mem_append.mp h with h1 | h1
    · left
      exact h1
    · right
      simpa using h1

theorem insertVersion_keys_of_mem {vers : List (Int × String)} {ts : Int}
    {d : String} (hk : ts ∈ vers.map Prod.fst) :
    (insertVersion vers ts d).map Prod.fst = vers.map Prod.fst := by
  have hany : vers.any (fun v => decide (v.1 = ts)) = true := by
    rw [List.any_eq_true]
    obtain ⟨v, hv, hveq⟩ := List.mem_map.mp hk
    exact ⟨v, hv, by simpa using hveq⟩
  unfold insertVersion
  rw [if_pos hany, List.map_map]
  apply List.map_congr_left
  intro v _
  by_cases hvk : v.1 = ts
  · simp [hvk]
  · simp [hvk]

theorem insertVersion_keys_of_not_mem {vers : List (Int × String)} {ts : Int}
    {d : String} (hk : ts ∉ vers.map Prod.fst) :
    (insertVersion vers ts d).map Prod.fst = vers.map Prod.fst ++ [ts] := by
  have hany : vers.any (fun v => decide (v.1 = ts)) = false := by
    rw [List.any_eq_false]
    intro v hv hveq
    apply hk
    have hv1 : v.1 = ts := by simpa using hveq
    rw [← hv1]
    exact List.mem_map_of_mem Prod.fst hv
  unfold insertVersion
  rw [if_neg (by simp [hany]), List.map_append]
  rfl

theorem insertVersion_key_mem (vers : List (Int × String)) (ts : Int)
    (d : String) : ts ∈ (insertVersion vers ts d).map Prod.fst := by
  by_cases hk : ts ∈ vers.map Prod.fst
  · rw [insertVersion_keys_of_mem hk]
    exact hk
  · rw [insertVersion_keys_of_not_mem hk]
    exact List.mem_append_right _ (by simp)

theorem insertVersion_keys_super {vers : List (Int × String)} {ts : Int}
    {d : String} (k : Int) (hk : k ∈ vers.map Prod.fst) :
    k ∈ (insertVersion vers ts d).map Prod.fst := by
  by_cases hmem : ts ∈ vers.map Prod.fst
  · rw [insertVersion_keys_of_mem hmem]
    exact hk
  · rw [insertVersion_keys_of_not_mem hmem]
    exact List.mem_append_left _ hk

theorem insertVersion_nodup {vers : List (Int × String)} {ts : Int}
    {d : String} (hnd : (vers.map Prod.fst).Nodup) :
    ((insertVersion vers ts d).map Prod.fst).Nodup := by
  by_cases hmem : ts ∈ vers.map Prod.fst
  · rw [insertVersion_keys_of_mem hmem]
    exact hnd
  · rw [insertVersion_keys_of_not_mem hmem]
    refine List.Nodup.append hnd (List.nodup_singleton _) ?_
    intro x hx hx2
    have hxts : x = ts := by simpa using hx2
    rw [hxts] at hx
    exact hmem hx

theorem stepVersion_inv {dateFmt : Int → String} {vers : List (Int × String)}
    {pts : List StoredPoint} (inv : VersionsInv vers pts) (pt : StoredPoint) :
    VersionsInv (stepVersion dateFmt vers pt) (pts ++ [pt]) := by
  obtain ⟨hnd, hsound, hcomp⟩ := inv
  unfold stepVersion
  cases hpl : pt.payload with
  | none =>
    refine ⟨hnd, ?_, ?_⟩
    · intro v hv
      obtain ⟨pt0, hpt0, hrep⟩ := hsound v hv
      exact ⟨pt0, List.mem_append_left _ hpt0, hrep⟩
    · intro pt0 hpt0 ts hrep
      rcases List.mem_append.mp hpt0 with h1 | h1
      · exact hcomp pt0 h1 ts hrep
      · exfalso
        have heq : pt0 = pt := by simpa using h1
        obtain ⟨pl, hpl2, _⟩ := hrep
        rw [heq, hpl] at hpl2
        exact Option.noConfusion hpl2
  | some pl =>
    show VersionsInv
      (match pl.timestamp with
        | none => vers
        | some ts =>
          if ts ≠ 0 ∧ pl.chunk_index.getD 0 = 0 then
            insertVersion vers ts (pl.version_date.getD (dateFmt ts))
          else vers)
      (pts ++ [pt])
    cases hts : pl.timestamp with
    | none =>
      refine ⟨hnd, ?_, ?_⟩
      · intro v hv
        obtain ⟨pt0, hpt0, hrep⟩ := hsound v hv
        exact ⟨pt0, List.mem_append_left _ hpt0, hrep⟩
      · intro pt0 hpt0 ts0 hrep
        rcases List.mem_append.mp hpt0 with h1 | h1
        · exact hcomp pt0 h1 ts0 hrep
        · exfalso
          have heq : pt0 = pt := by simpa using h1
          obtain ⟨pl0, hpl0, hts0, _⟩ := hrep
          rw [heq, hpl] at hpl0
          have hpleq : pl = pl0 := Option.some.inj hpl0
          rw [← hpleq, hts] at hts0
          exact Option.noConfusion hts0
    | some ts =>
      show VersionsInv
        (if ts ≠ 0 ∧ pl.chunk_index.getD 0 = 0 then
          insertVersion vers ts (pl.version_date.getD (dateFmt ts))
        else vers)
        (pts ++ [pt])
      by_cases hcond : ts ≠ 0 ∧ pl.chunk_index.getD 0 = 0
      · rw [if_pos hcond]
        refine ⟨insertVersion_nodup hnd, ?_, ?_⟩
        · intro v hv
          rcases mem_insertVersion hv with h1 | h1
          · obtain ⟨pt0, hpt0, hrep⟩ := hsound v h1
            exact ⟨pt0, List.mem_append_left _ hpt0, hrep⟩
          · refine ⟨pt, List.mem_append_right _ (by simp), ?_⟩
            rw [h1]
            exact ⟨pl, hpl, hts, hcond.1, hcond.2⟩
        · intro pt0 hpt0 ts0 hrep
          rcases List.mem_append.mp hpt0 with h1 | h1
          · exact insertVersion_keys_super _ (hcomp pt0 h1 ts0 hrep)
          · have heq : pt0 = pt := by simpa using h1
            obtain ⟨pl0, hpl0, hts0, _, _⟩ := hrep
            rw [heq, hpl] at hpl0
            have hpleq : pl = pl0 := Option.some.inj hpl0
            rw [← hpleq, hts] at hts0
            have htseq : ts = ts0 := Option.some.inj hts0
            rw [← htseq]
            exact insertVersion_key_mem vers ts _
      · rw [if_neg hcond]
        refine ⟨hnd, ?_, ?_⟩
        · intro v hv
          obtain ⟨pt0, hpt0, hrep⟩ := hsound v hv
          exact ⟨pt0, List.mem_append_left _ hpt0, hrep⟩
        · intro pt0 hpt0 ts0 hrep
          rcases List.mem_append.mp hpt0 with h1 | h1
          · exact hcomp pt0 h1 ts0 hrep
          · exfalso
            have heq : pt0 = pt := by simpa using h1
            obtain ⟨pl0, hpl0, hts0, hne0, hchunk0⟩ := hrep
            rw [heq, hpl] at hpl0
            have hpleq : pl = pl0 := Option.some.inj hpl0
            rw [← hpleq, hts] at hts0
            have htseq : ts = ts0 := Option.some.inj hts0
            apply hcond
            rw [← hpleq] at hchunk0
            exact ⟨htseq ▸ hne0, hchunk0⟩

theorem foldl_stepVersion_inv (dateFmt : Int → String) :
    ∀ (rest : List StoredPoint) (vers : List (Int × String))
      (pts : List StoredPoint), VersionsInv vers pts →
      VersionsInv (List.foldl (stepVersion dateFmt) vers rest) (pts ++ rest) := by
  intro rest
  induction rest with
  | nil =>
    intro vers pts inv
    simpa using inv
  | cons pt t ih =>
    intro vers pts inv
    have hstep := ih (stepVersion dateFmt vers pt) (pts ++ [pt])
      (stepVersion_inv inv pt)
    rw [List.append_assoc] at hstep
    simpa using hstep

theorem versionsFold_inv (dateFmt : Int → String) (pts : List StoredPoint) :
    VersionsInv (versionsFold dateFmt pts) pts := by
  have h := foldl_stepVersion_inv dateFmt pts [] []
    ⟨List.nodup_nil, by simp, by simp⟩
  simpa using h

/-- Claim C7 (counterexample): a stored chunk-0 point for the requested path
whose timestamp is `0` is silently dropped by the `if timestamp:` truthiness
test, so its `(timestamp, version_date)` pair is not returned. -/
theorem get_document_versions_zero_ts :
    get_document_versions (fun _ => "x") [zeroTsPoint] "doc" = [] ∧
      ((0 : Int), "1970-01-01 00:00:00") ∉
        get_document_versions (fun _ => "x") [zeroTsPoint] "doc" := by
  have h : versionsFold (fun _ => "x") (scrollPage [zeroTsPoint] "doc")
      = [] := rfl
  constructor
  · unfold get_document_versions
    rw [h, List.mergeSort_nil]
  · unfold get_document_versions
    rw [h, List.mergeSort_nil]
    exact List.not_mem_nil _

/-- Claim C7 (amended): over the first scroll page (the path-filtered stored
points, truncated at the page size 100), `get_document_versions` returns the
timestamps in strictly descending order with no duplicates; every returned
pair's timestamp belongs to a scrolled chunk-0 point with that present,
NON-ZERO timestamp; conversely every scrolled chunk-0 point with a present,
non-zero timestamp has its timestamp returned (with the last-recorded date
for that timestamp); and the scrolled points all match the requested path. -/
theorem get_document_versions_ordering (dateFmt : Int → String)
    (stored : List StoredPoint) (path : String) :
    (get_document_versions dateFmt stored path).Pairwise
      (fun a b => b.1 < a.1) ∧
    (∀ pt ∈ scrollPage stored path, ∀ pl, pt.payload = some pl →
      pl.path = path) ∧
    (∀ v ∈ get_document_versions dateFmt stored path,
      ∃ pt ∈ scrollPage stored path, isVersionRep pt v.1) ∧
    (∀ pt ∈ scrollPage stored path, ∀ ts : Int, isVersionRep pt ts →
      ∃ d, (ts, d) ∈ get_document_versions dateFmt stored path) := by
  have hinv := versionsFold_inv dateFmt (scrollPage stored path)
  refine ⟨?_, ?_, ?_, ?_⟩
  · have hs := @List.sorted_mergeSort (Int × String)
      (fun a b => decide (b.1 ≤ a.1))
      (fun a b c hab hbc => by
        simp only [decide_eq_true_eq] at hab hbc ⊢
        exact le_trans hbc hab)
      (fun a b => by
        simp only [Bool.or_eq_true, decide_eq_true_eq]
        exact le_total b.1 a.1)
      (versionsFold dateFmt (scrollPage stored path))
    have hs2 : (get_document_versions dateFmt stored path).Pairwise
        (fun a b => b.1 ≤ a.1) := by
      refine List.Pairwise.imp ?_ hs
      intro a b hab
      simpa using hab
    have hnodup : ((get_document_versions dateFmt stored path).map
        Prod.fst).Nodup := by
      have hperm := (List.mergeSort_perm
        (versionsFold dateFmt (scrollPage stored path))
        (fun a b => decide (b.1 ≤ a.1))).map Prod.fst
      exact hperm.nodup_iff.mpr hinv.1
    have hne : (get_document_versions dateFmt stored path).Pairwise
        (fun a b => a.1 ≠ b.1) := List.pairwise_map.mp hnodup
    refine List.Pairwise.imp ?_ (hs2.and hne)
    intro a b hab
    exact lt_of_le_of_ne hab.1 (fun he => hab.2 he.symm)
  · intro pt hpt pl hpl
    unfold scrollPage at hpt
    have hmem := List.mem_of_mem_take hpt
    have hfil := (List.mem_filter.mp hmem).2
    rw [hpl] at hfil
    simpa using hfil
  · intro v hv
    unfold get_document_versions at hv
    rw [List.mem_mergeSort] at hv
    exact hinv.2.1 v hv
  · intro pt hpt ts hrep
    have hkey := hinv.2.2 pt hpt ts hrep
    obtain ⟨v, hvmem, hveq⟩ := List.mem_map.mp hkey
    refine ⟨v.2, ?_⟩
    unfold get_document_versions
    rw [List.mem_mergeSort]
    have hvp : v = (ts, v.2) := by
      rw [← hveq]
    rwa [hvp] at hvmem

/-- Witness for the amended C7: a chunk-0 point with honest timestamp 5 has
its version returned. -/
theorem get_document_versions_ordering_witness :
    ∃ d, ((5 : Int), d) ∈
      get_document_versions (fun _ => "x") [fiveTsPoint] "doc" :=
  (get_document_versions_ordering (fun _ => "x") [fiveTsPoint] "doc").2.2.2
    fiveTsPoint (List.mem_singleton_self fiveTsPoint) 5
    ⟨{ path := "doc", timestamp := some 5
       version_date := some "1970-01-01 00:00:05", chunk_index := some 0 },
      rfl, rfl, by decide, rfl⟩

end Piper

